import Mathlib

/-!
# Verification of the gTTS-ts text segmentation engine

A shallow embedding of the text segmentation engine of the gTTS-ts
repository (TypeScript, running on Bun).  Strings are modelled as
`List Char`; JavaScript string primitives (`trim`, `lastIndexOf`,
`substring`, `String.prototype.split` with capturing groups) are embedded
with their ECMAScript semantics.  The recursive chunk minimizer
(`src/utils.ts: minimize`) is embedded step-indexed (with fuel), since
its JavaScript original does not terminate for a non-positive maximum
size; its termination for positive bounds is proved below.
-/

set_option autoImplicit false

namespace GTTS

/-! ## Symbol tables (`src/tokenizer/symbols.ts`) -/

/-- `TONE_MARKS = "?!？！"`. -/
def TONE_MARKS : List Char := ['?', '!', '？', '！']

/-- `PERIOD_COMMA = ".,"`. -/
def PERIOD_COMMA : List Char := ['.', ',']

/-- `ALL_PUNC = "?!？！.,¡()[]¿…‥،;:—。，、：\n"`. -/
def ALL_PUNC : List Char :=
  ['?', '!', '？', '！', '.', ',', '¡', '(', ')', '[', ']', '¿', '…', '‥',
   '،', ';', ':', '—', '。', '，', '、', '：', '\n']

/-- `ABBREVIATIONS = ["dr", "jr", "mr", "mrs", "ms", "msgr", "prof", "sr", "st"]`. -/
def ABBREVIATIONS : List (List Char) :=
  [['d','r'], ['j','r'], ['m','r'], ['m','r','s'], ['m','s'],
   ['m','s','g','r'], ['p','r','o','f'], ['s','r'], ['s','t']]

/-- `gTTS.GOOGLE_TTS_MAX_CHARS = 100` (`src/tts.ts`). -/
def GOOGLE_TTS_MAX_CHARS : Nat := 100

/-! ## JavaScript string primitives -/

/-- The ECMAScript whitespace set used by `String.prototype.trim` and by the
regex class `\s`: WhiteSpace ∪ LineTerminator. -/
def isJsSpace (c : Char) : Bool :=
  c == ' ' || c == '\t' || c == '\n' || c == '\r' ||
  c == '\u000B' || c == '\u000C' || c == '\u00A0' || c == '\uFEFF' ||
  c == '\u1680' || ('\u2000' ≤ c && c ≤ '\u200A') ||
  c == '\u2028' || c == '\u2029' ||
  c == '\u202F' || c == '\u205F' || c == '\u3000'

/-- `String.prototype.trim`: drop JS whitespace from both ends. -/
def jsTrim (s : List Char) : List Char :=
  ((s.dropWhile isJsSpace).reverse.dropWhile isJsSpace).reverse

/-- Largest `k ≤ pos` such that `d` occurs in `s` starting at index `k`
(searching downward from `pos`), if any. -/
def lastIndexFrom (s d : List Char) : Nat → Option Nat
  | 0 => if d.isPrefixOf s then some 0 else none
  | k + 1 =>
    if d.isPrefixOf (s.drop (k + 1)) then some (k + 1) else lastIndexFrom s d k

/-- `String.prototype.lastIndexOf(d, fromIndex)`: the largest index
`k ≤ clamp(fromIndex, 0, s.length)` at which `d` occurs in `s`, or `-1`.
An occurrence must fit inside `s` (automatic for `isPrefixOf` of a drop);
the empty needle occurs at every index including `s.length`. -/
def jsLastIndexOf (s d : List Char) (fromIndex : Int) : Int :=
  match lastIndexFrom s d ((min (max fromIndex 0) (s.length : Int)).toNat) with
  | some k => (k : Int)
  | none => -1

/-! ## Chunk minimizer (`src/utils.ts: minimize`) -/

/-- The unconditional first step of `minimize`: if `theString` starts with
`delim`, remove one leading occurrence (`theString.substring(delim.length)`). -/
def stripLeading (d s : List Char) : List Char :=
  if d.isPrefixOf s then s.drop d.length else s

/-- The cut index chosen by `minimize` in the over-length case:
`idx = theString.lastIndexOf(delim, maxSize)`, or `maxSize` when that is `-1`. -/
def minCut (s d : List Char) (m : Int) : Int :=
  if jsLastIndexOf s d m = -1 then m else jsLastIndexOf s d m

/-- Step-indexed embedding of `minimize(theString, delim, maxSize)`
(`src/utils.ts` lines 15–42).  One unit of fuel corresponds to one call of
the JavaScript function; `none` means the fuel was exhausted, i.e. the
JavaScript original would still be recursing.  `substring` clamps negative
indices to `0`, which `Int.toNat` reproduces. -/
def minimizeF : Nat → List Char → List Char → Int → Option (List (List Char))
  | 0, _, _, _ => none
  | fuel + 1, s0, d, m =>
    if ((stripLeading d s0).length : Int) > m then
      match minimizeF fuel
          ((stripLeading d s0).drop (minCut (stripLeading d s0) d m).toNat) d m with
      | some rest =>
        some ((stripLeading d s0).take (minCut (stripLeading d s0) d m).toNat :: rest)
      | none => none
    else some [stripLeading d s0]

/-- `minimize` with the fuel `length + 1`, which suffices for every positive
`maxSize` (proved below); for the degenerate non-positive `maxSize` the
JavaScript original does not terminate and this returns the default `[]`. -/
def minimize (s d : List Char) (m : Int) : List (List Char) :=
  (minimizeF (s.length + 1) s d m).getD []

/-- Divergence of the minimizer on a given input: no amount of fuel makes
the step-indexed evaluation return. -/
def minimizeDiverges (s d : List Char) (m : Int) : Prop :=
  ∀ fuel, minimizeF fuel s d m = none

/-! ## Token cleaner (`src/utils.ts: cleanTokens` and `_ALL_PUNC_OR_SPACE`) -/

/-- The test of `_ALL_PUNC_OR_SPACE = /^[<ALL_PUNC escaped>\s]*$/`:
every character is punctuation or JS whitespace (true of the empty string). -/
def isPuncOrSpaceOnly (s : List Char) : Bool :=
  s.all (fun c => ALL_PUNC.contains c || isJsSpace c)

/-- `cleanTokens`: trim every token, then keep only tokens that are truthy
(non-empty) and not punctuation/whitespace-only. -/
def cleanTokens (toks : List (List Char)) : List (List Char) :=
  (toks.map jsTrim).filter (fun t => !t.isEmpty && !isPuncOrSpaceOnly t)

/-! ## Pre-processors (`src/tokenizer/pre_processors.ts`)

Each pre-processor is a `PreProcessorRegex` run: one regex per trigger
string, applied sequentially, each as a global (`g`-flag) substitution. -/

/-- One pass of the tone-marks pre-processor: the global substitution of the
zero-width pattern `(?<=c)` by `" "`, i.e. a space is inserted immediately
after every occurrence of `c` (unconditionally — the lookbehind matches at
every position following a `c`, whatever comes next). -/
def insertSpaceAfter (c : Char) : List Char → List Char
  | [] => []
  | x :: rest =>
    if x = c then x :: ' ' :: insertSpaceAfter c rest
    else x :: insertSpaceAfter c rest

/-- `preProcessors.toneMarks`: sequentially insert a space after every
occurrence of each of the four tone-mark characters. -/
def toneMarksPre (s : List Char) : List Char :=
  TONE_MARKS.foldl (fun acc c => insertSpaceAfter c acc) s

/-- `preProcessors.endOfLine`: the global substitution of `-\n` by the empty
string (left-to-right, non-overlapping). -/
def endOfLinePre : List Char → List Char
  | '-' :: '\n' :: rest => endOfLinePre rest
  | c :: rest => c :: endOfLinePre rest
  | [] => []

/-- Case-insensitive (regex `i`-flag) prefix match of a pattern of literal
characters.  ECMAScript canonicalization without the `u` flag maps an ASCII
letter and its other case together and never maps a non-ASCII character to
an ASCII one, which `Char.toLower` (ASCII-only in Lean) reproduces for the
ASCII pattern characters used here. -/
def ciLeading : List Char → List Char → Bool
  | [], _ => true
  | _ :: _, [] => false
  | a :: as, b :: bs => (a.toLower == b.toLower) && ciLeading as bs

/-- One pass of `preProcessors.abbreviations` for one abbreviation root `a`:
the global substitution of `(?<=a)(?=\.).` (with the `i` flag) by the empty
string, i.e. delete every `.` whose preceding characters spell `a`
case-insensitively.  `arev` is `a` reversed; `rev` is the reversed prefix of
the *original* text already scanned (lookbehind inspects the original
string, and a deleted `.` still counts as scanned context). -/
def abbrAux (arev : List Char) (rev : List Char) : List Char → List Char
  | [] => []
  | c :: rest =>
    if c = '.' && ciLeading arev rev then abbrAux arev (c :: rev) rest
    else c :: abbrAux arev (c :: rev) rest

/-- One abbreviation pass over a whole string. -/
def abbrPass (a s : List Char) : List Char := abbrAux a.reverse [] s

/-- `preProcessors.abbreviations`: one pass per abbreviation root, in
list order. -/
def abbreviationsPre (s : List Char) : List Char :=
  ABBREVIATIONS.foldl (fun acc a => abbrPass a acc) s

/-- Global case-insensitive literal substitution of `find` by `repl`
(one `PreProcessorSub` pair).  Step-indexed structurally on `fuel`; each
step consumes at least one character of `s`, so `fuel = s.length` always
suffices (`find` is never empty in the source's `SUB_PAIRS`). -/
def subPassAux (find repl : List Char) : Nat → List Char → List Char
  | 0, s => s
  | fuel + 1, s =>
    match s with
    | [] => []
    | c :: rest =>
      if !find.isEmpty && ciLeading find s then
        repl ++ subPassAux find repl fuel (s.drop find.length)
      else c :: subPassAux find repl fuel rest

/-- `SUB_PAIRS = [["Esq.", "Esquire"]]`. -/
def SUB_PAIRS : List (List Char × List Char) :=
  [(['E','s','q','.'], ['E','s','q','u','i','r','e'])]

/-- `preProcessors.wordSub`: apply every substitution pair in order. -/
def wordSubPre (s : List Char) : List Char :=
  SUB_PAIRS.foldl (fun acc p => subPassAux p.1 p.2 acc.length acc) s

/-- The default pre-processor pipeline of `gTTS` (`src/tts.ts` constructor):
tone marks, end-of-line, abbreviations, word substitution, in that order. -/
def preProcessDefault (s : List Char) : List Char :=
  wordSubPre (abbreviationsPre (endOfLinePre (toneMarksPre s)))

/-- Every occurrence of `c` in the list is immediately followed by `' '`. -/
def followedBySpace (c : Char) : List Char → Bool
  | [] => true
  | x :: rest =>
    (if x = c then rest.head? == some ' ' else true) && followedBySpace c rest

/-- Every tone-mark character occurring in the list is immediately followed
by a space. -/
def toneSpacedOk (s : List Char) : Bool :=
  TONE_MARKS.all (fun c => followedBySpace c s)

/-! ## Tokenizer (`src/tokenizer/core.ts: Tokenizer` with the default cases
of `tokenizer_cases.ts`)

`Tokenizer.combineRegex` wraps each case's pattern in a capturing group and
joins them with `|`, compiling with the `i` flag; `Tokenizer.run` is
`text.split(totalRegex)`.  The combined pattern is

`((?<=\?).|(?<=!).|(?<=？).|(?<=！).)|((?<!\.[a-z])\. |(?<!\.[a-z]), )|((?<!\d):)|(¡|…|\n|…)`

with exactly four capturing groups.  ECMAScript `String.prototype.split`
with a separator regex containing capturing groups inserts, at every
separator match, the value of *each* group into the result — `undefined`
for a group that did not participate in the match.  Tokens are therefore
modelled as `Option (List Char)`, `none` standing for `undefined`. -/

/-- `.` in a regex without the `s` flag: any character except a
LineTerminator. -/
def isLineTerm (c : Char) : Bool :=
  c == '\n' || c == '\r' || c == '\u2028' || c == '\u2029'

/-- `[a-z]` under the `i` flag (no `u` flag): exactly the ASCII letters. -/
def isAsciiLetterChar (c : Char) : Bool :=
  ('a' ≤ c && c ≤ 'z') || ('A' ≤ c && c ≤ 'Z')

/-- `\d`: the ASCII digits. -/
def isAsciiDigitChar (c : Char) : Bool := '0' ≤ c && c ≤ '9'

/-- `tokenizerCases.toneMarks`, `(?<=x).` for each tone mark `x`: matches at
`q` iff `q` has a predecessor that is a tone mark and the character at `q`
is not a line terminator.  Match length 1. -/
def toneMatchAt (s : List Char) (q : Nat) : Bool :=
  match q with
  | 0 => false
  | p + 1 =>
    match s[p]?, s[p + 1]? with
    | some t, some c => TONE_MARKS.contains t && !isLineTerm c
    | _, _ => false

/-- `tokenizerCases.periodComma`, `(?<!\.[a-z])x␣` for `x ∈ ".,"`: matches a
period or comma followed by a space, unless the two preceding characters
are a period and an ASCII letter.  Match length 2 (the space is part of the
match and of the captured group). -/
def periodCommaMatchAt (s : List Char) (q : Nat) : Bool :=
  match s[q]?, s[q + 1]? with
  | some x, some y =>
    PERIOD_COMMA.contains x && y == ' ' &&
    !(match q with
      | 0 => false
      | 1 => false
      | p + 2 =>
        match s[p]?, s[p + 1]? with
        | some d, some l => d == '.' && isAsciiLetterChar l
        | _, _ => false)
  | _, _ => false

/-- `tokenizerCases.colon`, `(?<!\d):`: a colon not immediately preceded by
a digit.  Match length 1. -/
def colonMatchAt (s : List Char) (q : Nat) : Bool :=
  match s[q]? with
  | some c =>
    c == ':' &&
    !(match q with
      | 0 => false
      | p + 1 =>
        match s[p]? with
        | some d => isAsciiDigitChar d
        | none => false)
  | none => false

/-- `tokenizerCases.otherPunctuation`: the punctuation of `ALL_PUNC` not
claimed by the first three cases, each as a bare literal alternative. -/
def OTHER_PUNC : List Char :=
  ALL_PUNC.filter (fun c =>
    !TONE_MARKS.contains c && !PERIOD_COMMA.contains c && c != ':')

/-- `(punc1|punc2|…)`: matches any single character of `OTHER_PUNC`. -/
def otherPuncMatchAt (s : List Char) (q : Nat) : Bool :=
  match s[q]? with
  | some c => OTHER_PUNC.contains c
  | none => false

/-- The combined alternation at one position: alternatives are tried in
rule order (regex alternation is ordered), returning the capturing-group
number (1–4) and the match length. -/
def matchAt (s : List Char) (q : Nat) : Option (Nat × Nat) :=
  if toneMatchAt s q then some (1, 1)
  else if periodCommaMatchAt s q then some (2, 2)
  else if colonMatchAt s q then some (3, 1)
  else if otherPuncMatchAt s q then some (4, 1)
  else none

/-- The four result entries contributed by one separator match: the
captured text for the participating group, `undefined` for the rest. -/
def groupEntries (g : Nat) (cap : List Char) : List (Option (List Char)) :=
  [if g = 1 then some cap else none,
   if g = 2 then some cap else none,
   if g = 3 then some cap else none,
   if g = 4 then some cap else none]

/-- The scanning loop of `String.prototype.split`: `p` is the start of the
current unmatched piece, `q` the scan position.  At a match of length
`len`, the piece `s[p..q)`, then the four group entries, are emitted and
scanning resumes at `q + len`; with no match at `q` the scan advances one
position; past the end, the final piece `s[p..]` is emitted.  Structurally
step-indexed: every alternative has positive length, so `s.length + 1`
fuel always suffices (out of fuel the remaining text is emitted, which
keeps the loop total without affecting any sufficiently-fuelled run). -/
def splitAux (s : List Char) : Nat → Nat → Nat → List (Option (List Char))
  | 0, p, _ => [some (s.drop p)]
  | fuel + 1, p, q =>
    if q < s.length then
      match matchAt s q with
      | some (g, len) =>
        some ((s.drop p).take (q - p)) ::
          (groupEntries g ((s.drop q).take len) ++ splitAux s fuel (q + len) (q + len))
      | none => splitAux s fuel p (q + 1)
    else [some (s.drop p)]

/-- `Tokenizer.run text = text.split(totalRegex)` for the default cases. -/
def tokenizerRun (s : List Char) : List (Option (List Char)) :=
  splitAux s (s.length + 1) 0 0

/-- Concatenation of the defined entries of a split result (the `undefined`
placeholders contribute nothing). -/
def joinSomes : List (Option (List Char)) → List Char
  | [] => []
  | some t :: rest => t ++ joinSomes rest
  | none :: rest => joinSomes rest

/-! ## Segmentation engine (`src/tts.ts: gTTS.tokenize` / `prepareRequests`) -/

/-- The flattening loop of `gTTS.tokenize`:
`for (const t of cleanedTokens) minTokens.push(...minimize(t, " ", MAX))`. -/
def flattenParts (f : List Char → List (List Char)) : List (List Char) → List (List Char)
  | [] => []
  | t :: rest => f t ++ flattenParts f rest

/-- `gTTS.tokenize` for an engine instance with pre-processor list `pps` and
a tokenizer function `tf` returning plain strings (the constructor accepts
both as configuration): trim, pre-process in order, fast-path any text of
at most `GOOGLE_TTS_MAX_CHARS` characters as a cleaned one-element list,
otherwise tokenize, clean, minimize each token with delimiter `" "` and the
fixed maximum, flatten, and keep the truthy (non-empty) results. -/
def preProcessWith (pps : List (List Char → List Char)) (text : List Char) :
    List Char :=
  pps.foldl (fun acc f => f acc) (jsTrim text)

def tokenizeT (pps : List (List Char → List Char))
    (tf : List Char → List (List Char)) (text : List Char) : List (List Char) :=
  if (preProcessWith pps text).length ≤ GOOGLE_TTS_MAX_CHARS then
    cleanTokens [preProcessWith pps text]
  else
    (flattenParts (fun tok => minimize tok [' '] (GOOGLE_TTS_MAX_CHARS : Int))
        (cleanTokens (tf (preProcessWith pps text)))).filter (fun c => !c.isEmpty)

/-- Runtime behaviour of `cleanTokens` on the raw output of the default
tokenizer: `tokens.map(t => t.trim())` throws a `TypeError` as soon as an
element is `undefined` (`undefined.trim` is not a function), modelled as
`none`; otherwise it cleans the (all defined) values. -/
def cleanTokensRT (toks : List (Option (List Char))) : Option (List (List Char)) :=
  if toks.all Option.isSome then some (cleanTokens (toks.filterMap id))
  else none

/-- `gTTS.tokenize` with the default configuration (default pre-processor
list and the default `Tokenizer` of the constructor).  `none` models the
call throwing a `TypeError` inside `cleanTokens`. -/
def tokenizeDefault (text : List Char) : Option (List (List Char)) :=
  if (preProcessDefault (jsTrim text)).length ≤ GOOGLE_TTS_MAX_CHARS then
    some (cleanTokens [preProcessDefault (jsTrim text)])
  else
    match cleanTokensRT (tokenizerRun (preProcessDefault (jsTrim text))) with
    | none => none
    | some cleaned =>
      some ((flattenParts (fun tok => minimize tok [' '] (GOOGLE_TTS_MAX_CHARS : Int))
          cleaned).filter (fun c => !c.isEmpty))

/-- `gTTS.prepareRequests` (for an instance whose tokenizer returns plain
strings): segment the text and fail with the "empty input" error when the
chunk list is empty, otherwise return the chunks to be packaged into
requests.  The function is pure: `stream()` issues network requests only
after it has returned successfully, so the error precedes any backend
interaction.  The RPC packaging of each chunk (`packageRpc`) is irrelevant
to the error behaviour and is left as the chunk itself. -/
def prepareRequests (pps : List (List Char → List Char))
    (tf : List Char → List (List Char)) (text : List Char) :
    Except (List Char) (List (List Char)) :=
  if (tokenizeT pps tf text).isEmpty then
    Except.error ("No text to send to TTS API".toList)
  else Except.ok (tokenizeT pps tf text)

/-! ## Lemmas about the JavaScript primitives -/

theorem lastIndexFrom_le (s d : List Char) :
    ∀ pos k, lastIndexFrom s d pos = some k → k ≤ pos := by
  intro pos
  induction pos with
  | zero =>
    intro k h
    unfold lastIndexFrom at h
    split at h
    · exact (Option.some_inj.mp h) ▸ Nat.le_refl 0
    · exact absurd h (by simp)
  | succ n ih =>
    intro k h
    unfold lastIndexFrom at h
    split at h
    · exact (Option.some_inj.mp h) ▸ Nat.le_refl (n + 1)
    · exact Nat.le_succ_of_le (ih k h)

theorem lastIndexFrom_isPre (s d : List Char) :
    ∀ pos k, lastIndexFrom s d pos = some k → d.isPrefixOf (s.drop k) = true := by
  intro pos
  induction pos with
  | zero =>
    intro k h
    unfold lastIndexFrom at h
    split at h
    case isTrue hp => cases Option.some_inj.mp h; simpa using hp
    case isFalse => exact absurd h (by simp)
  | succ n ih =>
    intro k h
    unfold lastIndexFrom at h
    split at h
    case isTrue hp => cases Option.some_inj.mp h; exact hp
    case isFalse => exact ih k h

theorem lastIndexFrom_nil (s : List Char) (pos : Nat) :
    lastIndexFrom s [] pos = some pos := by
  cases pos with
  | zero => simp [lastIndexFrom, List.isPrefixOf]
  | succ n => simp [lastIndexFrom, List.isPrefixOf]

theorem stripLeading_length_le (d s : List Char) :
    (stripLeading d s).length ≤ s.length := by
  unfold stripLeading
  split
  · simp [Nat.sub_le]
  · exact Nat.le_refl _

/-- If the strip step did remove something, the result is strictly shorter
(possible only for a non-empty delimiter that prefixes the string). -/
theorem stripLeading_lt_of_isPre (d s : List Char) (hd : d ≠ [])
    (hp : d.isPrefixOf s = true) : (stripLeading d s).length < s.length := by
  have hds : d.length ≤ s.length := by
    have := List.IsPrefix.length_le ((List.isPrefixOf_iff_prefix).mp hp)
    simpa using this
  have hd1 : 1 ≤ d.length := List.length_pos.mpr hd
  unfold stripLeading
  rw [if_pos hp]
  simp only [List.length_drop]
  omega

/-! ## Lemmas about the minimizer -/

/-- In the over-length case the clamped search start of `lastIndexOf`
is exactly `maxSize`. -/
theorem jsLastIndexOf_over (s d : List Char) (m : Int) (hm : 1 ≤ m)
    (hover : (s.length : Int) > m) :
    jsLastIndexOf s d m =
      match lastIndexFrom s d m.toNat with
      | some k => (k : Int)
      | none => -1 := by
  have harg : min (max m 0) ((s.length : Int)) = m := by
    rw [max_eq_left (by omega : (0 : Int) ≤ m)]
    exact min_eq_left (le_of_lt hover)
  unfold jsLastIndexOf
  rw [harg]

/-- The cut index of the over-length case: it never exceeds `maxSize`, and
it is `0` only when the (already stripped) string still starts with the
(non-empty) delimiter. -/
theorem minCut_spec (s d : List Char) (m : Int) (hm : 1 ≤ m)
    (hover : (s.length : Int) > m) :
    (minCut s d m).toNat ≤ m.toNat ∧
    ((minCut s d m).toNat = 0 → d ≠ [] ∧ d.isPrefixOf s = true) := by
  have hframe := jsLastIndexOf_over s d m hm hover
  cases h : lastIndexFrom s d m.toNat with
  | none =>
    have hj : jsLastIndexOf s d m = -1 := by rw [hframe, h]
    have hcut : minCut s d m = m := by unfold minCut; rw [hj]; simp
    rw [hcut]
    exact ⟨Nat.le_refl _, fun h0 => absurd h0 (by omega)⟩
  | some k =>
    have hj : jsLastIndexOf s d m = (k : Int) := by rw [hframe, h]
    have hk : ((k : Int)) ≠ -1 := by omega
    have hcut : minCut s d m = (k : Int) := by unfold minCut; rw [hj]; simp [hk]
    rw [hcut]
    simp only [Int.toNat_natCast]
    refine ⟨lastIndexFrom_le s d _ k h, fun h0 => ?_⟩
    subst h0
    refine ⟨?_, by simpa using lastIndexFrom_isPre s d _ 0 h⟩
    intro hd
    subst hd
    rw [lastIndexFrom_nil s m.toNat] at h
    have := Option.some_inj.mp h
    omega

/-- Termination of the minimizer for every positive maximum size: the fuel
`length + 1` (one unit per recursive call) always suffices, because every
recursive call strictly decreases the string length — by at least one
delimiter occurrence when the cut lands at index `0`, by the cut index
otherwise. -/
theorem minimizeF_isSome (d : List Char) (m : Int) (hm : 1 ≤ m) :
    ∀ fuel s, s.length < fuel → (minimizeF fuel s d m).isSome = true := by
  intro fuel
  induction fuel with
  | zero => intro s h; exact absurd h (Nat.not_lt_zero _)
  | succ n ih =>
    intro s0 hs0
    by_cases hover : ((stripLeading d s0).length : Int) > m
    case neg => simp [minimizeF, hover]
    case pos =>
      have hspec := minCut_spec (stripLeading d s0) d m hm hover
      have hlen : (stripLeading d s0).length ≤ s0.length := stripLeading_length_le d s0
      have harg :
          ((stripLeading d s0).drop (minCut (stripLeading d s0) d m).toNat).length < n := by
        simp only [List.length_drop]
        rcases Nat.eq_zero_or_pos (minCut (stripLeading d s0) d m).toNat with h0 | hpos
        · obtain ⟨hd, hp⟩ := hspec.2 h0
          -- strip really fired on `s0` (it cannot have been the identity)
          have hlt : (stripLeading d s0).length < s0.length := by
            by_cases hp0 : d.isPrefixOf s0 = true
            · exact stripLeading_lt_of_isPre d s0 hd hp0
            · rw [stripLeading, if_neg hp0] at hp; exact absurd hp hp0
          omega
        · have h2 : (2 : Int) ≤ ((stripLeading d s0).length : Int) := by omega
          have h2n : 2 ≤ (stripLeading d s0).length := by exact_mod_cast h2
          omega
      have := ih _ harg
      obtain ⟨r, hr⟩ := Option.isSome_iff_exists.mp this
      simp [minimizeF, hover, hr]

/-- Every chunk emitted by the minimizer has at most `maxSize` characters
(for a positive `maxSize`): an over-length step emits `take idx` with
`idx ≤ maxSize`, and the final step emits a string of length `≤ maxSize`. -/
theorem minimizeF_bound (d : List Char) (m : Int) (hm : 1 ≤ m) :
    ∀ fuel s r, minimizeF fuel s d m = some r →
      ∀ c ∈ r, (c.length : Int) ≤ m := by
  intro fuel
  induction fuel with
  | zero => intro s r h; exact absurd h (by simp [minimizeF])
  | succ n ih =>
    intro s0 r h c hc
    by_cases hover : ((stripLeading d s0).length : Int) > m
    · rw [show minimizeF (n + 1) s0 d m =
          (match minimizeF n
              ((stripLeading d s0).drop (minCut (stripLeading d s0) d m).toNat) d m with
            | some rest =>
              some ((stripLeading d s0).take (minCut (stripLeading d s0) d m).toNat :: rest)
            | none => none) by simp [minimizeF, hover]] at h
      cases hrec : minimizeF n
          ((stripLeading d s0).drop (minCut (stripLeading d s0) d m).toNat) d m with
      | none => rw [hrec] at h; exact absurd h (by simp)
      | some rest =>
        rw [hrec] at h
        cases Option.some_inj.mp h
        rcases List.mem_cons.mp hc with hc1 | hc2
        · subst hc1
          have hcut := (minCut_spec (stripLeading d s0) d m hm hover).1
          simp only [List.length_take]
          have : min (minCut (stripLeading d s0) d m).toNat
              (stripLeading d s0).length ≤ m.toNat := le_trans (min_le_left _ _) hcut
          omega
        · exact ih _ rest hrec c hc2
    · rw [show minimizeF (n + 1) s0 d m = some [stripLeading d s0] by
        simp [minimizeF, hover]] at h
      cases Option.some_inj.mp h
      rcases List.mem_singleton.mp hc with rfl
      omega

/-- The size bound carried over to `minimize`. -/
theorem minimize_bound (s d : List Char) (m : Int) (hm : 1 ≤ m) :
    ∀ c ∈ minimize s d m, (c.length : Int) ≤ m := by
  intro c hc
  unfold minimize at hc
  cases h : minimizeF (s.length + 1) s d m with
  | none => rw [h] at hc; exact absurd hc (by simp)
  | some r => rw [h] at hc; exact minimizeF_bound d m hm _ s r h c (by simpa using hc)

/-! ## Lemmas about the cleaner and the engine -/

theorem jsTrim_length_le (s : List Char) : (jsTrim s).length ≤ s.length := by
  unfold jsTrim
  rw [List.length_reverse]
  calc ((s.dropWhile isJsSpace).reverse.dropWhile isJsSpace).length
      ≤ (s.dropWhile isJsSpace).reverse.length :=
        ((s.dropWhile isJsSpace).reverse.dropWhile_sublist isJsSpace).length_le
    _ = (s.dropWhile isJsSpace).length := List.length_reverse _
    _ ≤ s.length := (s.dropWhile_sublist isJsSpace).length_le

/-- Membership in a cleaned token list: every survivor is the trim of an
input token, is non-empty, and is not punctuation/whitespace-only. -/
theorem mem_cleanTokens {c : List Char} {toks : List (List Char)}
    (hc : c ∈ cleanTokens toks) :
    (∃ t ∈ toks, c = jsTrim t) ∧ c ≠ [] ∧ isPuncOrSpaceOnly c = false := by
  unfold cleanTokens at hc
  have h := List.mem_filter.mp hc
  obtain ⟨t, ht, rfl⟩ := List.mem_map.mp h.1
  have h2 := h.2
  simp only [Bool.and_eq_true, Bool.not_eq_true'] at h2
  refine ⟨⟨t, ht, rfl⟩, ?_, h2.2⟩
  intro hnil
  rw [hnil] at h2
  simp at h2

theorem mem_flattenParts {f : List Char → List (List Char)}
    {l : List (List Char)} {c : List Char} (hc : c ∈ flattenParts f l) :
    ∃ t ∈ l, c ∈ f t := by
  induction l with
  | nil => exact absurd hc (by simp [flattenParts])
  | cons t rest ih =>
    unfold flattenParts at hc
    rcases List.mem_append.mp hc with h1 | h2
    · exact ⟨t, List.mem_cons_self t rest, h1⟩
    · obtain ⟨u, hu, hcu⟩ := ih h2
      exact ⟨u, List.mem_cons_of_mem t hu, hcu⟩

/-- Every chunk produced by the engine respects the fixed maximum: on the
fast path the chunk is a trim of a string that already fits, otherwise it
comes out of the minimizer invoked with the fixed maximum. -/
theorem tokenizeT_bound (pps : List (List Char → List Char))
    (tf : List Char → List (List Char)) (text : List Char) :
    ∀ c ∈ tokenizeT pps tf text, c.length ≤ GOOGLE_TTS_MAX_CHARS := by
  intro c hc
  unfold tokenizeT at hc
  split at hc
  case isTrue hfast =>
    obtain ⟨⟨t, ht, rfl⟩, -, -⟩ := mem_cleanTokens hc
    rcases List.mem_singleton.mp ht with rfl
    exact le_trans (jsTrim_length_le _) hfast
  case isFalse =>
    have hmem := (List.mem_filter.mp hc).1
    obtain ⟨t, -, hct⟩ := mem_flattenParts hmem
    have := minimize_bound t [' '] (GOOGLE_TTS_MAX_CHARS : Int)
      (by norm_num [GOOGLE_TTS_MAX_CHARS]) c hct
    exact_mod_cast this

set_option maxHeartbeats 1000000 in
/-- Same bound for the default-configuration engine, whenever the call
returns at all. -/
theorem tokenizeDefault_bound (text : List Char) (r : List (List Char))
    (h : tokenizeDefault text = some r) :
    ∀ c ∈ r, c.length ≤ GOOGLE_TTS_MAX_CHARS := by
  intro c hc
  unfold tokenizeDefault at h
  split at h
  case isTrue hfast =>
    cases Option.some_inj.mp h
    obtain ⟨⟨t, ht, rfl⟩, -, -⟩ := mem_cleanTokens hc
    rcases List.mem_singleton.mp ht with rfl
    exact le_trans (jsTrim_length_le _) hfast
  case isFalse =>
    cases hrt : cleanTokensRT (tokenizerRun (preProcessDefault (jsTrim text))) with
    | none => rw [hrt] at h; exact absurd h (by simp)
    | some cleaned =>
      rw [hrt] at h
      cases Option.some_inj.mp h
      have hmem := (List.mem_filter.mp hc).1
      obtain ⟨t, -, hct⟩ := mem_flattenParts hmem
      have := minimize_bound t [' '] (GOOGLE_TTS_MAX_CHARS : Int)
        (by norm_num [GOOGLE_TTS_MAX_CHARS]) c hct
      exact_mod_cast this

/-- The engine never returns an empty chunk: the fast path cleans (which
filters empties) and the long path ends in `filter(t => t)`. -/
theorem tokenizeT_no_empty (pps : List (List Char → List Char))
    (tf : List Char → List (List Char)) (text : List Char) :
    ∀ c ∈ tokenizeT pps tf text, c ≠ [] := by
  intro c hc
  unfold tokenizeT at hc
  split at hc
  case isTrue => exact (mem_cleanTokens hc).2.1
  case isFalse =>
    have h := (List.mem_filter.mp hc).2
    simp only [Bool.not_eq_true'] at h
    intro hnil
    rw [hnil] at h
    simp at h

/-! ## Lemmas about the tone-marks pre-processor -/

/-- After inserting a space behind every `c`, every `c` is followed by a
space (for `c` itself not a space). -/
theorem fbs_insertSpaceAfter_self (c : Char) (hc : ¬ c = ' ') :
    ∀ s, followedBySpace c (insertSpaceAfter c s) = true := by
  have hc' : ¬ (' ' = c) := fun h => hc h.symm
  intro s
  induction s with
  | nil => rfl
  | cons x rest ih =>
    by_cases hx : x = c
    · subst hx
      simp [insertSpaceAfter, followedBySpace, ih, hc']
    · simp [insertSpaceAfter, followedBySpace, hx, ih]

/-- Inserting spaces after `c` preserves "every `d` is followed by a space"
for any other non-space trigger `d` (no insertion can land between a `d`
and its following space). -/
theorem fbs_insertSpaceAfter_other (c d : Char) (hcsp : ¬ c = ' ')
    (hdc : ¬ d = c) (hd : ¬ d = ' ') :
    ∀ s, followedBySpace d s = true → followedBySpace d (insertSpaceAfter c s) = true := by
  have hcd : ¬ (c = d) := fun h => hdc h.symm
  have hsd : ¬ (' ' = d) := fun h => hd h.symm
  have hsc : ¬ (' ' = c) := fun h => hcsp h.symm
  intro s
  induction s with
  | nil => intro h; exact h
  | cons x rest ih =>
    intro h
    simp only [followedBySpace, Bool.and_eq_true] at h
    obtain ⟨h1, h2⟩ := h
    by_cases hx : x = c
    · subst hx
      simp [insertSpaceAfter, followedBySpace, hcd, hsd, ih h2]
    · by_cases hxd : x = d
      · subst hxd
        rw [if_pos rfl] at h1
        have hh : (insertSpaceAfter c rest).head? = some ' ' := by
          cases rest with
          | nil => simp at h1
          | cons y t =>
            have hy : y = ' ' := by simpa using h1
            subst hy
            simp [insertSpaceAfter, hsc]
        simp [insertSpaceAfter, hx, followedBySpace, hh, ih h2]
      · simp [insertSpaceAfter, hx, followedBySpace, hxd, ih h2]

/-- In the output of the tone-marks pre-processor every tone mark is
immediately followed by a space: each of the four passes establishes the
property for its own trigger and the later passes (inserting spaces only,
each behind a different non-space character) preserve it. -/
theorem toneMarksPre_spaced (s : List Char) : toneSpacedOk (toneMarksPre s) = true := by
  have e : toneMarksPre s =
      insertSpaceAfter '！' (insertSpaceAfter '？'
        (insertSpaceAfter '!' (insertSpaceAfter '?' s))) := rfl
  have h1 : followedBySpace '?' (toneMarksPre s) = true := by
    rw [e]
    exact fbs_insertSpaceAfter_other '！' '?' (by decide) (by decide) (by decide) _
      (fbs_insertSpaceAfter_other '？' '?' (by decide) (by decide) (by decide) _
        (fbs_insertSpaceAfter_other '!' '?' (by decide) (by decide) (by decide) _
          (fbs_insertSpaceAfter_self '?' (by decide) s)))
  have h2 : followedBySpace '!' (toneMarksPre s) = true := by
    rw [e]
    exact fbs_insertSpaceAfter_other '！' '!' (by decide) (by decide) (by decide) _
      (fbs_insertSpaceAfter_other '？' '!' (by decide) (by decide) (by decide) _
        (fbs_insertSpaceAfter_self '!' (by decide) _))
  have h3 : followedBySpace '？' (toneMarksPre s) = true := by
    rw [e]
    exact fbs_insertSpaceAfter_other '！' '？' (by decide) (by decide) (by decide) _
      (fbs_insertSpaceAfter_self '？' (by decide) _)
  have h4 : followedBySpace '！' (toneMarksPre s) = true := by
    rw [e]
    exact fbs_insertSpaceAfter_self '！' (by decide) _
  simp [toneSpacedOk, TONE_MARKS, h1, h2, h3, h4]

/-! ## Lemmas about the tokenizer's split -/

theorem joinSomes_append (a b : List (Option (List Char))) :
    joinSomes (a ++ b) = joinSomes a ++ joinSomes b := by
  induction a with
  | nil => simp [joinSomes]
  | cons x rest ih =>
    cases x with
    | some t => simp [joinSomes, ih]
    | none => simp [joinSomes, ih]

theorem matchAt_group_mem (s : List Char) (q : Nat) (g len : Nat)
    (h : matchAt s q = some (g, len)) : g = 1 ∨ g = 2 ∨ g = 3 ∨ g = 4 := by
  unfold matchAt at h
  split_ifs at h <;> cases h <;> simp

theorem joinSomes_groupEntries (g : Nat) (cap : List Char)
    (hg : g = 1 ∨ g = 2 ∨ g = 3 ∨ g = 4) :
    joinSomes (groupEntries g cap) = cap := by
  rcases hg with rfl | rfl | rfl | rfl <;> simp [groupEntries, joinSomes]

/-- The split loop loses nothing: the pieces between matches and the
captured groups of the matches concatenate (in order, skipping the
`undefined` entries) to the text from the current piece start onward. -/
theorem joinSomes_splitAux (s : List Char) :
    ∀ fuel p q, p ≤ q → joinSomes (splitAux s fuel p q) = s.drop p := by
  intro fuel
  induction fuel with
  | zero => intro p q hpq; simp [splitAux, joinSomes]
  | succ n ih =>
    intro p q hpq
    by_cases hq : q < s.length
    · cases hm : matchAt s q with
      | none =>
        rw [show splitAux s (n + 1) p q = splitAux s n p (q + 1) by
          simp [splitAux, hq, hm]]
        exact ih p (q + 1) (Nat.le_succ_of_le hpq)
      | some gl =>
        obtain ⟨g, len⟩ := gl
        rw [show splitAux s (n + 1) p q =
            some ((s.drop p).take (q - p)) ::
              (groupEntries g ((s.drop q).take len) ++ splitAux s n (q + len) (q + len)) by
          simp [splitAux, hq, hm]]
        have hge := joinSomes_groupEntries g ((s.drop q).take len)
          (matchAt_group_mem s q g len hm)
        simp only [joinSomes, joinSomes_append, hge,
          ih (q + len) (q + len) (Nat.le_refl _)]
        rw [List.drop_take_append_drop]
        have hdq : s.drop q = (s.drop p).drop (q - p) := by
          rw [List.drop_drop]
          congr 1
          omega
        rw [hdq, List.take_append_drop]
    · simp [splitAux, hq, joinSomes]

/-- Divergence of the minimizer on the delimiter-free two-character string
`"ab"` for every non-positive maximum size: the strip step does not apply,
the length exceeds the bound, no delimiter is found at or before the
clamped search start `0`, so the cut index is the non-positive `maxSize`,
`substring` clamps it to `0`, and the recursion repeats the identical call. -/
theorem minimizeF_ab_none (m : Int) (hm : m ≤ 0) :
    ∀ fuel, minimizeF fuel ['a', 'b'] [' '] m = none := by
  intro fuel
  induction fuel with
  | zero => rfl
  | succ n ih =>
    have hstrip : stripLeading [' '] ['a', 'b'] = ['a', 'b'] := rfl
    have hj : jsLastIndexOf ['a', 'b'] [' '] m = -1 := by
      unfold jsLastIndexOf
      have hpos : (min (max m 0) (((['a', 'b'] : List Char).length : Int))).toNat = 0 := by
        simp only [List.length_cons, List.length_nil]
        omega
      rw [hpos]
      rfl
    have hcut : (minCut ['a', 'b'] [' '] m).toNat = 0 := by
      unfold minCut
      rw [hj]
      simp only [if_pos rfl]
      omega
    have hover : ((stripLeading [' '] ['a', 'b']).length : Int) > m := by
      rw [hstrip]
      simp only [List.length_cons, List.length_nil]
      omega
    have harg : (stripLeading [' '] ['a', 'b']).drop
        (minCut (stripLeading [' '] ['a', 'b']) [' '] m).toNat = ['a', 'b'] := by
      rw [hstrip, hcut]
      rfl
    simp [minimizeF, hover, harg, ih]

end GTTS

namespace GTTS

/-! ## Sanity examples (concrete evaluations of the embedding) -/

example : tokenizerRun ['a', 'b', '.', ' ', 'c', 'd'] =
    [some ['a', 'b'], none, some ['.', ' '], none, none, some ['c', 'd']] := by decide

example : tokenizerRun ['a', '!', ' ', 'b'] =
    [some ['a', '!'], some [' '], none, none, none, some ['b']] := by decide

example : tokenizerRun ['x', ';', 'y'] =
    [some ['x'], none, none, none, some [';'], some ['y']] := by decide

example : toneMarksPre ['a', '?', ' ', 'b'] = ['a', '?', ' ', ' ', 'b'] := by decide

example : toneMarksPre ['o', 'i', '?'] = ['o', 'i', '?', ' '] := by decide

example : endOfLinePre ['w', 'o', 'n', '-', '\n', 'd', 'e', 'r'] =
    ['w', 'o', 'n', 'd', 'e', 'r'] := by decide

example : abbreviationsPre ['D', 'r', '.', ' ', 'S'] = ['D', 'r', ' ', 'S'] := by decide

example : wordSubPre ['e', 'S', 'Q', '.', '!'] =
    ['E','s','q','u','i','r','e','!'] := by decide

example : minimize (' ' :: ['a', 'b']) [' '] 100 = [['a', 'b']] := by decide

example : minimize ['a','b','c',' ','d','e'] [' '] 3 = [['a','b','c'], ['d','e']] := by
  decide

example : cleanTokens [[' ', 'a', ' '], ['.', '.'], []] = [['a']] := by decide

end GTTS

namespace GTTS

example : tokenizeT [] (fun t => [t]) ['h', 'i', '.'] = [['h', 'i', '.']] := by decide

example : tokenizeDefault ['h', 'i'] = some [['h', 'i']] := by decide

example : prepareRequests [] (fun t => [t]) ['.', ' ', '.'] =
    Except.error ("No text to send to TTS API".toList) := rfl


/-! ## Claim theorems -/

/-- C1: for every input string, delimiter, and positive `maxSize`, every
element of the list returned by `minimize` has length at most `maxSize`;
consequently every chunk returned by the segmentation engine
(`gTTS.tokenize`, fixed maximum `GOOGLE_TTS_MAX_CHARS = 100`) has length at
most the maximum — for every engine configuration returning plain tokens
and for the default configuration whenever its call returns. -/
theorem claim1_chunk_size_invariant :
    (∀ (s d : List Char) (m : Int), 1 ≤ m →
      ∀ c ∈ minimize s d m, (c.length : Int) ≤ m) ∧
    (∀ (pps : List (List Char → List Char)) (tf : List Char → List (List Char))
      (text : List Char),
      ∀ c ∈ tokenizeT pps tf text, c.length ≤ GOOGLE_TTS_MAX_CHARS) ∧
    (∀ (text : List Char) (r : List (List Char)), tokenizeDefault text = some r →
      ∀ c ∈ r, c.length ≤ GOOGLE_TTS_MAX_CHARS) :=
  ⟨minimize_bound, tokenizeT_bound, tokenizeDefault_bound⟩

/-- Witness for C1, discharging each hypothesis at concrete inputs. -/
theorem claim1_chunk_size_invariant_witness :
    (List.length ['a', 'b', 'c'] : Int) ≤ 3 ∧
    List.length ['h', 'i', '.'] ≤ GOOGLE_TTS_MAX_CHARS ∧
    List.length ['h', 'i'] ≤ GOOGLE_TTS_MAX_CHARS :=
  ⟨claim1_chunk_size_invariant.1 ['a', 'b', 'c', ' ', 'd', 'e'] [' '] 3
      (by norm_num) ['a', 'b', 'c'] (by decide),
   claim1_chunk_size_invariant.2.1 [] (fun t => [t]) ['h', 'i', '.']
      ['h', 'i', '.'] (by decide),
   claim1_chunk_size_invariant.2.2 ['h', 'i'] [['h', 'i']] (by decide)
      ['h', 'i'] (by decide)⟩

/-- C2 (code bug): on a long text containing a period/comma split, the
default tokenizer's split result contains `undefined` placeholder entries
(the alternation of four capturing groups leaves at least three groups
non-participating at every separator match), and the engine call then
crashes inside `cleanTokens` (`undefined.trim()` throws a `TypeError`),
modelled as `none`. -/
theorem claim2_tokenizer_undefined_holes :
    none ∈ tokenizerRun (List.replicate 101 'a' ++ [',', ' ', 'n', 'e', 'x', 't']) ∧
    tokenizeDefault (List.replicate 101 'a' ++ [',', ' ', 'n', 'e', 'x', 't']) =
      none := by
  decide

/-- C3, counterexample: a segmentation run (with an engine configuration
the constructor accepts) returns a chunk of 100 periods — punctuation
only.  The final pass is `minTokens.filter(t => t)`, which removes only
empty strings; the minimizer output is not cleaned again. -/
theorem claim3_counterexample :
    tokenizeT [] (fun t => [t]) ('a' :: ' ' :: List.replicate 100 '.') =
      [['a'], List.replicate 100 '.'] ∧
    isPuncOrSpaceOnly (List.replicate 100 '.') = true := by
  decide

/-- C3, amended: no chunk returned by the engine is empty (the fast path
cleans its single token, the long path ends in `filter(t => t)`), but a
returned chunk may consist solely of whitespace/punctuation characters,
because the flattened minimizer results are only filtered for truthiness,
not trimmed or cleaned once more. -/
theorem claim3_no_empty_chunk (pps : List (List Char → List Char))
    (tf : List Char → List (List Char)) (text : List Char) :
    ∀ c ∈ tokenizeT pps tf text, c ≠ [] :=
  tokenizeT_no_empty pps tf text

/-- Witness for C3 at a concrete input. -/
theorem claim3_no_empty_chunk_witness : (['h', 'i', '.'] : List Char) ≠ [] :=
  claim3_no_empty_chunk [] (fun t => [t]) ['h', 'i', '.'] ['h', 'i', '.'] (by decide)

/-- C4: the minimizer terminates on every finite string, every delimiter
and every positive maximum size — the fuel `length + 1`, one unit per
JavaScript recursive call, always yields a result (each call strictly
shrinks the string, including on all-delimiter strings, where the strip
step shrinks it, and on delimiter-free strings, where the arbitrary cut at
`maxSize` shrinks it). -/
theorem claim4_minimize_terminates (s d : List Char) (m : Int) (hm : 1 ≤ m) :
    (minimizeF (s.length + 1) s d m).isSome = true :=
  minimizeF_isSome d m hm (s.length + 1) s (Nat.lt_succ_self _)

/-- Witness for C4: an all-delimiter string and a delimiter-free string,
both longer than the maximum size `1`. -/
theorem claim4_minimize_terminates_witness :
    (minimizeF 4 [' ', ' ', ' '] [' '] 1).isSome = true ∧
    (minimizeF 4 ['a', 'b', 'c'] [' '] 1).isSome = true :=
  ⟨claim4_minimize_terminates [' ', ' ', ' '] [' '] 1 (by norm_num),
   claim4_minimize_terminates ['a', 'b', 'c'] [' '] 1 (by norm_num)⟩

/-- C5, counterexample: with the non-positive maximum size `0` nothing is
rejected and no error is raised — the minimizer recurses forever on the
delimiter-free two-character string `"ab"` (every fuel amount is
exhausted). -/
theorem claim5_counterexample : minimizeDiverges ['a', 'b'] [' '] 0 :=
  minimizeF_ab_none 0 (le_refl 0)

/-- C5, amended: neither `minimize` nor the engine validates the maximum
size: for every non-positive maximum the minimizer recurses indefinitely
instead of raising an error; the engine itself never reaches this case
because its maximum is the fixed positive constant
`GOOGLE_TTS_MAX_CHARS = 100`. -/
theorem claim5_no_rejection :
    (∀ m : Int, m ≤ 0 → minimizeDiverges ['a', 'b'] [' '] m) ∧
    0 < GOOGLE_TTS_MAX_CHARS :=
  ⟨fun m hm => minimizeF_ab_none m hm, by norm_num [GOOGLE_TTS_MAX_CHARS]⟩

/-- Witness for C5 at a concrete negative maximum size. -/
theorem claim5_no_rejection_witness :
    minimizeF 5 ['a', 'b'] [' '] (-1) = none ∧ 0 < GOOGLE_TTS_MAX_CHARS :=
  ⟨claim5_no_rejection.1 (-1) (by norm_num) 5, claim5_no_rejection.2⟩

/-- C6, counterexample: a tone mark that is already followed by a space
still receives an additional inserted space — the zero-width lookbehind
substitution `(?<=x) → " "` is unconditional. -/
theorem claim6_counterexample :
    toneMarksPre ['a', '?', ' ', 'b'] = ['a', '?', ' ', ' ', 'b'] ∧
    (['a', '?', ' ', ' ', 'b'] : List Char) ≠ ['a', '?', ' ', 'b'] := by
  decide

/-- C6, amended: the tone-mark pre-processor inserts a space immediately
after every tone-mark character unconditionally, also when whitespace
already follows; consequently in its output every tone mark is immediately
followed by a space. -/
theorem claim6_tone_marks_spacing (s : List Char) :
    toneSpacedOk (toneMarksPre s) = true :=
  toneMarksPre_spaced s

/-- C7, counterexample: the trailing space of the period/comma rule is not
dropped — it is captured inside the `". "` token, and concatenating the
defined tokens reconstructs the input exactly. -/
theorem claim7_counterexample :
    joinSomes (tokenizerRun ['a', 'b', '.', ' ', 'c', 'd']) =
      ['a', 'b', '.', ' ', 'c', 'd'] ∧
    some ['.', ' '] ∈ tokenizerRun ['a', 'b', '.', ' ', 'c', 'd'] := by
  decide

/-- C7, amended: concatenating, in left-to-right order, the defined tokens
returned by the tokenizer reconstructs the normalized input exactly; no
characters are dropped — each rule's whole match (including the
period/comma rule's trailing space) is captured into its token, and the
`undefined` placeholder entries contribute nothing. -/
theorem claim7_concat_reconstructs (s : List Char) :
    joinSomes (tokenizerRun s) = s := by
  have h := joinSomes_splitAux s (s.length + 1) 0 0 (Nat.le_refl 0)
  simpa using h

/-- C8, counterexample: a token that fits the maximum size but starts with
the delimiter is not returned unchanged — the one-leading-delimiter strip
runs before the length test, not only in the over-length case. -/
theorem claim8_counterexample :
    minimize [' ', 'a', 'b'] [' '] 100 = [['a', 'b']] ∧
    minimize [' ', 'a', 'b'] [' '] 100 ≠ [[' ', 'a', 'b']] := by
  decide

/-- C8, amended: for a positive maximum size and a token no longer than
it, `minimize` returns a single chunk: the token itself when it does not
start with the delimiter, otherwise the token with exactly one leading
delimiter occurrence stripped (the strip is unconditional). -/
theorem claim8_short_token (t d : List Char) (m : Int) (_hm : 1 ≤ m)
    (ht : (t.length : Int) ≤ m) : minimize t d m = [stripLeading d t] := by
  have h1 : (stripLeading d t).length ≤ t.length := stripLeading_length_le d t
  have hno : ¬ ((stripLeading d t).length : Int) > m := by
    have h2 : ((stripLeading d t).length : Int) ≤ (t.length : Int) := by
      exact_mod_cast h1
    omega
  simp [minimize, minimizeF, hno]

/-- Witness for C8 at a concrete short delimiter-headed token. -/
theorem claim8_short_token_witness : minimize [' ', 'a'] [' '] 7 = [['a']] :=
  calc minimize [' ', 'a'] [' '] 7 = [stripLeading [' '] [' ', 'a']] :=
        claim8_short_token [' ', 'a'] [' '] 7 (by norm_num) (by decide)
    _ = [['a']] := by decide

/-- C9: on `"It costs 3.50 at 10:15."` the default split rules match
nowhere — in particular the period/comma rule does not match the period of
`3.50` (no following space) and the colon rule does not match the colon of
`10:15` (preceded by a digit) — so the tokenizer returns the whole text as
one token, with no boundary inside either substring. -/
theorem claim9_decimal_time_guard :
    tokenizerRun ("It costs 3.50 at 10:15.".toList) =
      [some ("It costs 3.50 at 10:15.".toList)] := by
  decide

/-- C10: preparing the backend requests fails with the "empty input" error
exactly when the segmentation result is empty.  `prepareRequests` is pure
and `stream()` issues requests only from its successful result, so the
error precedes any backend interaction. -/
theorem claim10_empty_input_error (pps : List (List Char → List Char))
    (tf : List Char → List (List Char)) (text : List Char) :
    prepareRequests pps tf text =
      Except.error ("No text to send to TTS API".toList) ↔
    tokenizeT pps tf text = [] := by
  by_cases h : (tokenizeT pps tf text).isEmpty
  · have hnil : tokenizeT pps tf text = [] := by
      cases htt : tokenizeT pps tf text with
      | nil => rfl
      | cons a l => rw [htt] at h; simp at h
    simp [prepareRequests, h, hnil]
  · have hnnil : tokenizeT pps tf text ≠ [] := by
      intro hnil
      rw [hnil] at h
      simp at h
    simp [prepareRequests, h, hnnil]

end GTTS
